import Mathlib

/-!
Shallow embedding of web/hooks/use-bets.ts (manifold).

The module keeps live, locally cached collections of bets.  Its pure kernel,
embedded below, consists of:

* betShouldBeFiltered : the client-side filter predicate over a bet and an
  optional BetFilter (JavaScript truthiness of the option values is modelled
  explicitly: a missing option, the empty string and the number 0 all make a
  guard falsy);
* the addBets merge steps of useSubscribeNewBets, useSubscribeGlobalBets and
  useUnfilledBets: concatenate, deduplicate by id keeping the first
  occurrence (lodash uniqBy), stable-sort ascending by createdTime (lodash
  sortBy, modelled by List.insertionSort, which is stable), then filter;
* the result post-processing of useRealtimeBetsPolling (lodash orderBy
  descending by createdTime);
* the delta-query construction newRowsOnlyQ of useRealtimeBetsPolling.

Timestamps are modelled as Nat (the source compares numbers, or ISO-8601
strings whose lexicographic order agrees with the numeric order, so a single
numeric time scale is faithful).  Wall-clock reads (Date.now()) are passed in
as an explicit evaluation-time parameter.
-/

namespace UseBets

/-- Bet record (common/bet).  Classification and liveness flags that are
optional in TypeScript are modelled as Bool with default false, which agrees
with JavaScript truthiness of an absent field.  LimitBet is the subtype with
the optional expiresAt field; we use a single structure with
expiresAt : Option Nat, absent for plain bets. -/
structure Bet where
  id : String := ""
  contractId : String := ""
  userId : String := ""
  createdTime : Nat := 0
  isChallenge : Bool := false
  isAnte : Bool := false
  isRedemption : Bool := false
  isFilled : Bool := false
  isCancelled : Bool := false
  expiresAt : Option Nat := none
deriving DecidableEq, Repr

/-- LimitBet is a Bet carrying the expiresAt field. -/
abbrev LimitBet := Bet

/-- Sort direction of the order option of BetFilter. -/
inductive SortOrder where
  | asc
  | desc
deriving DecidableEq, Repr

/-- BetFilter (common/bet).  Optional string and number options are modelled
as Option; optional boolean options as Bool (absent = false, which matches
truthiness). -/
structure BetFilter where
  contractId : Option String := none
  userId : Option String := none
  afterTime : Option Nat := none
  beforeTime : Option Nat := none
  filterChallenges : Bool := false
  filterAntes : Bool := false
  filterRedemptions : Bool := false
  isOpenLimitOrder : Bool := false
  order : Option SortOrder := none
  limit : Option Nat := none
deriving DecidableEq, Repr

/-- JavaScript truthiness of an optional string: an absent value and the
empty string are falsy. -/
def optStrTruthy : Option String → Bool
  | none => false
  | some s => decide (s ≠ "")

/-- JavaScript truthiness of an optional number: an absent value and 0 are
falsy. -/
def optNatTruthy : Option Nat → Bool
  | none => false
  | some n => decide (n ≠ 0)

/-- betShouldBeFiltered (use-bets.ts lines 14-36): true when the bet must be
excluded.  Each disjunct mirrors one guarded condition of the source; the
guards are JavaScript truthiness checks on the option values. -/
def betShouldBeFiltered (bet : Bet) (options : Option BetFilter) : Bool :=
  match options with
  | none => false
  | some o =>
    (optStrTruthy o.contractId && decide (bet.contractId ≠ o.contractId.getD "")) ||
    (optStrTruthy o.userId && decide (bet.userId ≠ o.userId.getD "")) ||
    (optNatTruthy o.afterTime && decide (bet.createdTime ≤ o.afterTime.getD 0)) ||
    (optNatTruthy o.beforeTime && decide (bet.createdTime ≥ o.beforeTime.getD 0)) ||
    (o.filterChallenges && bet.isChallenge) ||
    (o.filterAntes && bet.isAnte) ||
    (o.filterRedemptions && bet.isRedemption) ||
    (o.isOpenLimitOrder && (bet.isFilled || bet.isCancelled))

/-- Modelled from the spec: the exclusion predicate exactly as section 4.1 of
the specification words it, reading an option as set whenever it is present
(contractId set and differing, afterTime set and createdTime at or before it,
and so on).  This is the spec-side definition used to compare against the
source definition betShouldBeFiltered. -/
def betExcludedSpec (bet : Bet) (options : Option BetFilter) : Bool :=
  match options with
  | none => false
  | some o =>
    (o.contractId.isSome && decide (bet.contractId ≠ o.contractId.getD "")) ||
    (o.userId.isSome && decide (bet.userId ≠ o.userId.getD "")) ||
    (o.afterTime.isSome && decide (bet.createdTime ≤ o.afterTime.getD 0)) ||
    (o.beforeTime.isSome && decide (bet.createdTime ≥ o.beforeTime.getD 0)) ||
    (o.filterChallenges && bet.isChallenge) ||
    (o.filterAntes && bet.isAnte) ||
    (o.filterRedemptions && bet.isRedemption) ||
    (o.isOpenLimitOrder && (bet.isFilled || bet.isCancelled))

/-! ### lodash uniqBy -/

/-- Worker for uniqBy: keeps the first element seen for every key, skipping
elements whose key is in the accumulator of already seen keys. -/
def uniqByAux {α κ : Type} [DecidableEq κ] (key : α → κ) (seen : List κ) :
    List α → List α
  | [] => []
  | x :: xs =>
    if key x ∈ seen then uniqByAux key seen xs
    else x :: uniqByAux key (key x :: seen) xs

/-- lodash uniqBy: first occurrence of every key wins, order preserved. -/
def uniqBy {α κ : Type} [DecidableEq κ] (key : α → κ) (l : List α) : List α :=
  uniqByAux key [] l

/-! ### lodash sortBy and orderBy on createdTime -/

/-- Ascending comparison of bets by creation time. -/
def betLE (x y : Bet) : Prop := x.createdTime ≤ y.createdTime

instance : DecidableRel betLE := fun x y => Nat.decLe x.createdTime y.createdTime

instance : IsTotal Bet betLE := ⟨fun x y => Nat.le_total x.createdTime y.createdTime⟩

instance : IsTrans Bet betLE := ⟨fun _ _ _ h1 h2 => Nat.le_trans h1 h2⟩

/-- Descending comparison of bets by creation time. -/
def betGE (x y : Bet) : Prop := y.createdTime ≤ x.createdTime

instance : DecidableRel betGE := fun x y => Nat.decLe y.createdTime x.createdTime

instance : IsTotal Bet betGE := ⟨fun x y => Nat.le_total y.createdTime x.createdTime⟩

instance : IsTrans Bet betGE := ⟨fun _ _ _ h1 h2 => Nat.le_trans h2 h1⟩

/-- lodash sortBy(l, 'createdTime'): stable ascending sort by creation time,
modelled by insertion sort (which is stable). -/
def sortByCreatedTime (l : List Bet) : List Bet := List.insertionSort betLE l

/-- lodash orderBy(l, 'createdTime', 'desc'): stable descending sort by
creation time. -/
def orderByCreatedTimeDesc (l : List Bet) : List Bet := List.insertionSort betGE l

/-! ### The merge steps (addBets closures) -/

/-- The element predicate of the filter in addBets of useSubscribeNewBets
(use-bets.ts lines 110-113): keep bets strictly after afterTime, and drop
redemptions unless includeRedemptions. -/
def newBetsKeep (afterTime : Nat) (includeRedemptions : Bool) (b : Bet) : Bool :=
  decide (afterTime < b.createdTime) && (includeRedemptions || !b.isRedemption)

/-- addBets of useSubscribeNewBets (use-bets.ts lines 104-115): one merge of
an incoming batch bets into currentBets.  The current collection is placed
first in the concatenation, so uniqBy keeps the already present record on an
id collision. -/
def addBetsNew (afterTime : Nat) (includeRedemptions : Bool)
    (bets currentBets : List Bet) : List Bet :=
  (sortByCreatedTime (uniqBy Bet.id (currentBets ++ bets))).filter
    (newBetsKeep afterTime includeRedemptions)

/-- addBets of useSubscribeGlobalBets (use-bets.ts lines 147-158): textually
the same merge as useSubscribeNewBets, kept as its own definition because it
is a distinct closure in the source. -/
def addBetsGlobal (afterTime : Nat) (includeRedemptions : Bool)
    (bets currentBets : List Bet) : List Bet :=
  (sortByCreatedTime (uniqBy Bet.id (currentBets ++ bets))).filter
    (newBetsKeep afterTime includeRedemptions)

/-- The element predicate of the filter in addBets of useUnfilledBets
(use-bets.ts lines 195-200): not filled, not cancelled, and either no truthy
expiresAt or expiresAt strictly in the future of the evaluation time.  Note
the source tests truthiness of expiresAt, so an expiresAt equal to 0 counts
as no expiration. -/
def openOrderKeep (now : Nat) (bet : LimitBet) : Bool :=
  !bet.isFilled && !bet.isCancelled &&
    (!optNatTruthy bet.expiresAt || decide (now < bet.expiresAt.getD 0))

/-- addBets of useUnfilledBets (use-bets.ts lines 190-202): one merge of an
incoming batch newBets into the current optional collection bets.  The
incoming batch is placed first in the concatenation, so uniqBy keeps the
incoming record on an id collision; Date.now() is the explicit parameter
now. -/
def addBetsUnfilled (now : Nat) (newBets : List LimitBet)
    (bets : Option (List LimitBet)) : List LimitBet :=
  (sortByCreatedTime (uniqBy Bet.id (newBets ++ bets.getD []))).filter
    (openOrderKeep now)

/-! ### useRealtimeBetsPolling -/

/-- Row of the contract_bets table as the delta query sees it; only the
created_time column matters to the embedded logic.  ISO-8601 creation time
strings are modelled on the numeric time scale. -/
structure ContractBetsRow where
  created_time : Nat := 0
deriving DecidableEq, Repr

/-- Worker for lodash maxBy: strict greater-than comparison, so the first
maximal element is kept. -/
def maxByCreatedTimeAux (acc : ContractBetsRow) :
    List ContractBetsRow → ContractBetsRow
  | [] => acc
  | r :: rs =>
    maxByCreatedTimeAux (if acc.created_time < r.created_time then r else acc) rs

/-- lodash maxBy(rows, 'created_time'): none on an empty collection,
otherwise the first row carrying the maximal created_time. -/
def maxByCreatedTime : List ContractBetsRow → Option ContractBetsRow
  | [] => none
  | r :: rs => some (maxByCreatedTimeAux r rs)

/-- The delta query assembled by newRowsOnlyQ: a strict lower bound on
created_time (the gt clause) plus the residual filter handed to
applyBetsFilter. -/
structure DeltaQuery where
  gtCreatedTime : Nat
  residual : BetFilter
deriving DecidableEq, Repr

/-- newRowsOnlyQ of useRealtimeBetsPolling (use-bets.ts lines 62-75): the
strict lower bound is the maximal created_time of the known rows when any
exist, else the scope afterTime defaulted to 0 (new Date(x).toISOString() is
an order embedding and is modelled as x itself); the residual filter is the
scope filter with afterTime destructured away. -/
def newRowsOnlyQuery (options : BetFilter) (rows : Option (List ContractBetsRow)) :
    DeltaQuery :=
  let latestCreatedTime :=
    (maxByCreatedTime (rows.getD [])).map ContractBetsRow.created_time
  { gtCreatedTime := latestCreatedTime.getD (options.afterTime.getD 0)
    residual := { options with afterTime := none } }

/-- Result post-processing of useRealtimeBetsPolling (use-bets.ts lines
88-90): when the polling state holds rows, the hook returns them converted
and ordered by createdTime with the hard-coded direction desc; otherwise it
returns none.  convertBet (common/supabase/bets, outside this file) is a
field-renaming conversion and is modelled as the identity on the embedded
Bet; the options parameter is recorded because the claim quantifies over its
order option, which the returned expression does not consult. -/
def useRealtimeBetsPollingResult (options : BetFilter)
    (results : Option (List Bet)) : Option (List Bet) :=
  results.map (fun rs => orderByCreatedTimeDesc rs)

/-! ### Lemmas about uniqBy -/

section UniqBy

variable {α κ : Type} [DecidableEq κ] (key : α → κ)

theorem uniqByAux_sublist : ∀ (seen : List κ) (l : List α),
    List.Sublist (uniqByAux key seen l) l := by
  intro seen l
  induction l generalizing seen with
  | nil => simp [uniqByAux]
  | cons x xs ih =>
    rw [uniqByAux]
    by_cases h : key x ∈ seen
    · rw [if_pos h]
      exact (ih seen).trans (List.sublist_cons_self x xs)
    · rw [if_neg h]
      exact (ih (key x :: seen)).cons₂ x

theorem mem_of_mem_uniqByAux {seen : List κ} {l : List α} {x : α}
    (hx : x ∈ uniqByAux key seen l) : x ∈ l :=
  (uniqByAux_sublist key seen l).subset hx

theorem key_not_mem_seen_of_mem_uniqByAux : ∀ {seen : List κ} {l : List α} {x : α},
    x ∈ uniqByAux key seen l → key x ∉ seen := by
  intro seen l
  induction l generalizing seen with
  | nil => simp [uniqByAux]
  | cons y ys ih =>
    intro x hx
    rw [uniqByAux] at hx
    by_cases h : key y ∈ seen
    · rw [if_pos h] at hx
      exact ih hx
    · rw [if_neg h] at hx
      rcases List.mem_cons.mp hx with rfl | hx
      · exact h
      · exact fun hk => ih hx (List.mem_cons_of_mem _ hk)

theorem nodup_map_key_uniqByAux : ∀ (seen : List κ) (l : List α),
    ((uniqByAux key seen l).map key).Nodup := by
  intro seen l
  induction l generalizing seen with
  | nil => simp [uniqByAux]
  | cons y ys ih =>
    rw [uniqByAux]
    by_cases h : key y ∈ seen
    · rw [if_pos h]
      exact ih seen
    · rw [if_neg h]
      refine List.Nodup.cons ?_ (ih (key y :: seen))
      intro hmem
      rcases List.mem_map.mp hmem with ⟨z, hz, hkz⟩
      exact key_not_mem_seen_of_mem_uniqByAux key hz (hkz ▸ List.mem_cons_self _ _)

theorem uniqByAux_congr_seen : ∀ {s1 s2 : List κ} (l : List α),
    (∀ k, k ∈ s1 ↔ k ∈ s2) → uniqByAux key s1 l = uniqByAux key s2 l := by
  intro s1 s2 l
  induction l generalizing s1 s2 with
  | nil => intro _; rfl
  | cons y ys ih =>
    intro hiff
    rw [uniqByAux, uniqByAux]
    by_cases h : key y ∈ s1
    · rw [if_pos h, if_pos ((hiff (key y)).mp h)]
      exact ih hiff
    · rw [if_neg h, if_neg (fun hc => h ((hiff (key y)).mpr hc))]
      refine congrArg (y :: ·) (ih ?_)
      intro k
      simp only [List.mem_cons]
      exact or_congr Iff.rfl (hiff k)

theorem uniqByAux_append : ∀ (l1 l2 : List α) (seen : List κ),
    uniqByAux key seen (l1 ++ l2) =
      uniqByAux key seen l1 ++
        uniqByAux key ((uniqByAux key seen l1).map key ++ seen) l2 := by
  intro l1
  induction l1 with
  | nil =>
    intro l2 seen
    simp [uniqByAux]
  | cons x l1 ih =>
    intro l2 seen
    rw [List.cons_append, uniqByAux, uniqByAux]
    by_cases h : key x ∈ seen
    · rw [if_pos h, if_pos h]
      exact ih l2 seen
    · rw [if_neg h, if_neg h]
      rw [List.cons_append]
      refine congrArg (x :: ·) ?_
      rw [ih l2 (key x :: seen)]
      refine congrArg (uniqByAux key (key x :: seen) l1 ++ ·) ?_
      refine uniqByAux_congr_seen key l2 ?_
      intro k
      simp only [List.map_cons, List.mem_append, List.mem_cons]
      tauto

theorem uniqByAux_eq_filter : ∀ (l : List α) (seen : List κ),
    (l.map key).Nodup →
      uniqByAux key seen l = l.filter (fun x => decide (key x ∉ seen)) := by
  intro l
  induction l with
  | nil => intro seen _; rfl
  | cons y ys ih =>
    intro seen hnd
    rw [List.map_cons, List.nodup_cons] at hnd
    rw [uniqByAux, List.filter_cons]
    by_cases h : key y ∈ seen
    · rw [if_pos h, if_neg (by simp [h])]
      exact ih seen hnd.2
    · rw [if_neg h, if_pos (by simp [h])]
      refine congrArg (y :: ·) ?_
      rw [ih (key y :: seen) hnd.2]
      refine List.filter_congr ?_
      intro z hz
      have hzne : key z ≠ key y := fun he => hnd.1 (he ▸ List.mem_map_of_mem key hz)
      simp only [List.mem_cons, decide_eq_decide]
      tauto

theorem uniqBy_eq_self {l : List α} (hnd : (l.map key).Nodup) :
    uniqBy key l = l := by
  rw [uniqBy, uniqByAux_eq_filter key l [] hnd]
  refine List.filter_eq_self.mpr ?_
  intro a _
  simp

theorem mem_map_key_uniqByAux : ∀ {l : List α} {seen : List κ} {k : κ},
    k ∈ l.map key → k ∉ seen → k ∈ (uniqByAux key seen l).map key := by
  intro l
  induction l with
  | nil => simp
  | cons y ys ih =>
    intro seen k hk hks
    rw [List.map_cons, List.mem_cons] at hk
    rw [uniqByAux]
    by_cases h : key y ∈ seen
    · rw [if_pos h]
      rcases hk with rfl | hk
      · exact absurd h hks
      · exact ih hk hks
    · rw [if_neg h, List.map_cons]
      rcases hk with rfl | hk
      · exact List.mem_cons_self _ _
      · by_cases hky : k = key y
        · exact hky ▸ List.mem_cons_self _ _
        · refine List.mem_cons_of_mem _ (ih hk ?_)
          simp only [List.mem_cons]
          tauto

theorem mem_left_of_mem_uniqBy_append {l1 l2 : List α} {z : α}
    (hz : z ∈ uniqBy key (l1 ++ l2)) (hkey : key z ∈ l1.map key) : z ∈ l1 := by
  rw [uniqBy, uniqByAux_append key l1 l2 []] at hz
  rcases List.mem_append.mp hz with hz1 | hz2
  · exact mem_of_mem_uniqByAux key hz1
  · exfalso
    have hnot := key_not_mem_seen_of_mem_uniqByAux key hz2
    have hin : key z ∈ (uniqByAux key [] l1).map key :=
      mem_map_key_uniqByAux key hkey (List.not_mem_nil _)
    exact hnot (List.mem_append.mpr (Or.inl hin))

end UniqBy

/-! ### Lemmas about stable sorting (insertionSort) and filtering -/

section SortLemmas

variable {α : Type} (r : α → α → Prop) [DecidableRel r]

theorem orderedInsert_of_forall_rel {x : α} {l : List α}
    (h : ∀ z ∈ l, r x z) : List.orderedInsert r x l = x :: l := by
  cases l with
  | nil => rfl
  | cons y ys =>
    exact List.orderedInsert_of_le r ys (h y (List.mem_cons_self _ _))

theorem filter_orderedInsert [IsTrans α r] (p : α → Bool) (x : α) :
    ∀ {l : List α}, List.Sorted r l →
      (List.orderedInsert r x l).filter p =
        if p x then List.orderedInsert r x (l.filter p) else l.filter p := by
  intro l
  induction l with
  | nil =>
    intro _
    by_cases hp : p x <;> simp [hp, List.filter_cons]
  | cons y ys ih =>
    intro hs
    have hy : ∀ z ∈ ys, r y z := List.rel_of_sorted_cons hs
    have hys : List.Sorted r ys := hs.of_cons
    by_cases hxy : r x y
    · by_cases hp : p x = true
      · have hall : ∀ z ∈ (y :: ys).filter p, r x z := by
          intro z hz
          rcases List.mem_cons.mp (List.mem_filter.mp hz).1 with rfl | hz2
          · exact hxy
          · exact Trans.trans hxy (hy z hz2)
        have hins := orderedInsert_of_forall_rel r hall
        rw [List.orderedInsert, if_pos hxy, List.filter_cons, if_pos hp,
          if_pos hp, hins]
      · simp only [List.orderedInsert, if_pos hxy, List.filter_cons, hp,
          if_false, Bool.false_eq_true, ite_false]
    · by_cases hp : p x = true <;> by_cases hpy : p y = true <;>
        simp only [List.orderedInsert, if_neg hxy, List.filter_cons, hp, hpy,
          ih hys, if_true, if_false, Bool.false_eq_true, ite_true, ite_false]

theorem filter_insertionSort [IsTotal α r] [IsTrans α r] (p : α → Bool) :
    ∀ (l : List α),
      (List.insertionSort r l).filter p = List.insertionSort r (l.filter p) := by
  intro l
  induction l with
  | nil => rfl
  | cons x xs ih =>
    rw [List.insertionSort,
      filter_orderedInsert r p x (List.sorted_insertionSort r xs), ih,
      List.filter_cons]
    by_cases hp : p x
    · rw [if_pos hp, if_pos (by simp [hp]), List.insertionSort]
    · rw [if_neg hp, if_neg (by simp [hp])]

theorem insertionSort_append_insertionSort [IsTotal α r] [IsTrans α r] :
    ∀ (l1 l2 : List α),
      List.insertionSort r (l1 ++ List.insertionSort r l2) =
        List.insertionSort r (l1 ++ l2) := by
  intro l1 l2
  induction l1 with
  | nil =>
    simp only [List.nil_append]
    exact (List.sorted_insertionSort r l2).insertionSort_eq
  | cons x l1 ih =>
    rw [List.cons_append, List.cons_append, List.insertionSort, ih,
      List.insertionSort]

end SortLemmas

/-! ### Lemmas about the common merge pipeline

All three addBets closures share the shape
filter p (sortByCreatedTime (uniqBy Bet.id (first ++ second))): the first
operand of the concatenation wins id collisions.  mergeBets names that
shape; each addBets definition is definitionally an instance of it. -/

/-- The shared merge pipeline: concatenate (first operand wins id
collisions), deduplicate by id, stable-sort ascending by createdTime,
filter. -/
def mergeBets (p : Bet → Bool) (first second : List Bet) : List Bet :=
  (sortByCreatedTime (uniqBy Bet.id (first ++ second))).filter p

theorem addBetsNew_eq_mergeBets (afterTime : Nat) (includeRedemptions : Bool)
    (bets currentBets : List Bet) :
    addBetsNew afterTime includeRedemptions bets currentBets =
      mergeBets (newBetsKeep afterTime includeRedemptions) currentBets bets := rfl

theorem addBetsGlobal_eq_mergeBets (afterTime : Nat) (includeRedemptions : Bool)
    (bets currentBets : List Bet) :
    addBetsGlobal afterTime includeRedemptions bets currentBets =
      mergeBets (newBetsKeep afterTime includeRedemptions) currentBets bets := rfl

theorem addBetsUnfilled_eq_mergeBets (now : Nat) (newBets : List LimitBet)
    (bets : Option (List LimitBet)) :
    addBetsUnfilled now newBets bets =
      mergeBets (openOrderKeep now) newBets (bets.getD []) := rfl

theorem nodup_ids_uniqBy (l : List Bet) :
    ((uniqBy Bet.id l).map Bet.id).Nodup :=
  nodup_map_key_uniqByAux Bet.id [] l

theorem nodup_ids_mergeBets (p : Bet → Bool) (l1 l2 : List Bet) :
    ((mergeBets p l1 l2).map Bet.id).Nodup := by
  have h1 : ((uniqBy Bet.id (l1 ++ l2)).map Bet.id).Nodup :=
    nodup_ids_uniqBy (l1 ++ l2)
  have hperm : List.Perm (sortByCreatedTime (uniqBy Bet.id (l1 ++ l2)))
      (uniqBy Bet.id (l1 ++ l2)) := List.perm_insertionSort betLE _
  have h2 : ((sortByCreatedTime (uniqBy Bet.id (l1 ++ l2))).map Bet.id).Nodup :=
    h1.perm (hperm.map Bet.id).symm
  exact List.Nodup.sublist
    ((List.filter_sublist _).map Bet.id) h2

theorem mem_first_of_mem_mergeBets {p : Bet → Bool} {l1 l2 : List Bet} {y : Bet}
    (hy : y ∈ mergeBets p l1 l2) (hid : y.id ∈ l1.map Bet.id) : y ∈ l1 := by
  have h1 : y ∈ sortByCreatedTime (uniqBy Bet.id (l1 ++ l2)) :=
    (List.mem_filter.mp hy).1
  have h2 : y ∈ uniqBy Bet.id (l1 ++ l2) :=
    (List.perm_insertionSort betLE _).subset h1
  exact mem_left_of_mem_uniqBy_append Bet.id h2 hid

theorem sorted_mergeBets (p : Bet → Bool) (l1 l2 : List Bet) :
    List.Sorted betLE (mergeBets p l1 l2) :=
  (List.sorted_insertionSort betLE (uniqBy Bet.id (l1 ++ l2))).filter p

theorem filter_self_mergeBets (p : Bet → Bool) (l1 l2 : List Bet) :
    (mergeBets p l1 l2).filter p = mergeBets p l1 l2 := by
  refine List.filter_eq_self.mpr ?_
  intro a ha
  exact (List.mem_filter.mp ha).2

/-- Splitting the dedup of the merge: the deduplicated concatenation is the
deduplicated first operand followed by the residual of the second operand
whose ids do not occur in the deduplicated first operand. -/
theorem uniqBy_append_split (l1 l2 : List Bet) :
    uniqBy Bet.id (l1 ++ l2) =
      uniqBy Bet.id l1 ++
        uniqByAux Bet.id ((uniqBy Bet.id l1).map Bet.id) l2 := by
  rw [uniqBy, uniqByAux_append Bet.id l1 l2 []]
  refine congrArg (uniqByAux Bet.id [] l1 ++ ·) ?_
  refine uniqByAux_congr_seen Bet.id l2 ?_
  intro k
  simp [uniqBy]

/-- Idempotence of the merge when the repeated batch is the first operand
(the useUnfilledBets orientation, incoming batch first): merging the same
batch again into the result changes nothing, for every filter predicate and
with no assumption on the inputs. -/
theorem mergeBets_idem_first (p : Bet → Bool) (b cur : List Bet) :
    mergeBets p b (mergeBets p b cur) = mergeBets p b cur := by
  set ub := uniqBy Bet.id b with hub
  set seenb := ub.map Bet.id with hseenb
  set cres := uniqByAux Bet.id seenb cur with hcres
  have hsplit : uniqBy Bet.id (b ++ cur) = ub ++ cres := uniqBy_append_split b cur
  set r := mergeBets p b cur with hr
  have hrdef : r = (sortByCreatedTime (ub ++ cres)).filter p := by
    rw [hr, mergeBets, hsplit]
  -- ids of r are pairwise distinct
  have hrnodup : (r.map Bet.id).Nodup := nodup_ids_mergeBets p b cur
  -- the residual of r past the ids of ub is the sorted filtered residual of cur
  have hres : uniqByAux Bet.id seenb r = sortByCreatedTime (cres.filter p) := by
    rw [uniqByAux_eq_filter Bet.id r seenb hrnodup, hrdef]
    rw [List.filter_filter]
    have hcomm : ∀ x : Bet,
        (decide (x.id ∉ seenb) && p x) = (p x && decide (x.id ∉ seenb)) := by
      intro x
      exact Bool.and_comm _ _
    rw [List.filter_congr (fun x _ => hcomm x), ← List.filter_filter]
    rw [sortByCreatedTime, filter_insertionSort betLE
      (fun x => decide (x.id ∉ seenb)) (ub ++ cres)]
    rw [List.filter_append]
    have hub0 : ub.filter (fun x => decide (x.id ∉ seenb)) = [] := by
      refine List.filter_eq_nil_iff.mpr ?_
      intro a ha
      simp only [decide_eq_true_eq, Decidable.not_not]
      exact hseenb ▸ List.mem_map_of_mem Bet.id ha
    have hcres1 : cres.filter (fun x => decide (x.id ∉ seenb)) = cres := by
      refine List.filter_eq_self.mpr ?_
      intro a ha
      simpa using key_not_mem_seen_of_mem_uniqByAux Bet.id ha
    rw [hub0, hcres1, List.nil_append, sortByCreatedTime,
      filter_insertionSort betLE p cres]
  -- now compute both sides down to the same normal form
  have hmain : mergeBets p b r = r := by
    rw [mergeBets, uniqBy_append_split b r, ← hub, ← hseenb, hres, hrdef]
    simp only [sortByCreatedTime]
    rw [insertionSort_append_insertionSort betLE ub (cres.filter p)]
    rw [filter_insertionSort betLE p (ub ++ cres.filter p), List.filter_append,
      List.filter_filter]
    have hpp : ∀ x ∈ cres, (p x && p x) = p x := fun x _ => Bool.and_self _
    rw [List.filter_congr hpp]
    rw [filter_insertionSort betLE p (ub ++ cres), List.filter_append]
  exact hmain

/-- Idempotence of the merge when the repeated batch is the second operand
(the useSubscribeNewBets orientation, current collection first).  This
direction needs the data-model invariant that an id determines the record
among the participating bets: an id collision between the current collection
and the batch with differing payloads breaks it (see the counterexample for
claim C5). -/
theorem mergeBets_idem_second (p : Bet → Bool) (cur b : List Bet)
    (H : ∀ x ∈ cur ++ b, ∀ y ∈ cur ++ b, x.id = y.id → x = y) :
    mergeBets p (mergeBets p cur b) b = mergeBets p cur b := by
  set u := uniqBy Bet.id (cur ++ b) with hu
  set r := mergeBets p cur b with hr
  have hrdef : r = (sortByCreatedTime u).filter p := rfl
  have hrnodup : (r.map Bet.id).Nodup := nodup_ids_mergeBets p cur b
  have hsplit : uniqBy Bet.id (r ++ b) =
      r ++ uniqByAux Bet.id (r.map Bet.id) b := by
    rw [uniqBy_append_split r b, uniqBy_eq_self Bet.id hrnodup]
  set bad := uniqByAux Bet.id (r.map Bet.id) b with hbad
  have hbadfail : ∀ z ∈ bad, p z = false := by
    intro z hz
    have hzb : z ∈ b := mem_of_mem_uniqByAux Bet.id hz
    have hznotr : z.id ∉ r.map Bet.id :=
      key_not_mem_seen_of_mem_uniqByAux Bet.id hz
    have hzin : z ∈ cur ++ b := List.mem_append.mpr (Or.inr hzb)
    have hcover : z.id ∈ u.map Bet.id := by
      rw [hu, uniqBy]
      exact mem_map_key_uniqByAux Bet.id
        (List.mem_map_of_mem Bet.id hzin) (List.not_mem_nil _)
    rcases List.mem_map.mp hcover with ⟨w, hw, hwid⟩
    have hwin : w ∈ cur ++ b := (uniqByAux_sublist Bet.id [] _).subset hw
    have hwz : w = z := H w hwin z hzin hwid
    have hzu : z ∈ u := hwz ▸ hw
    by_contra hpz
    have hpz2 : p z = true := by
      cases hpzv : p z with
      | false => exact absurd hpzv hpz
      | true => rfl
    have hzr : z ∈ r := by
      rw [hrdef]
      exact List.mem_filter.mpr
        ⟨(List.perm_insertionSort betLE u).symm.subset hzu, hpz2⟩
    exact hznotr (List.mem_map_of_mem Bet.id hzr)
  have hfilterbad : bad.filter p = [] := by
    refine List.filter_eq_nil_iff.mpr ?_
    intro a ha
    rw [hbadfail a ha]
    simp
  have hfilterr : r.filter p = r := filter_self_mergeBets p cur b
  have hrsorted : List.Sorted betLE r := sorted_mergeBets p cur b
  rw [mergeBets, hsplit, sortByCreatedTime,
    filter_insertionSort betLE p (r ++ bad), List.filter_append, hfilterbad,
    hfilterr, List.append_nil]
  exact hrsorted.insertionSort_eq

/-! ### Claim theorems -/

/-- C1 (counterexample): the filter evaluator does not implement the eight
exclusion conditions with an option counting as set whenever it is present.
At the bet with createdTime 0 and the filter with afterTime present and equal
to 0, the spec-side condition (afterTime set and createdTime at most
afterTime) holds, yet betShouldBeFiltered does not exclude the bet, because
the source guards each condition with JavaScript truthiness and 0 is
falsy. -/
theorem c1_counterexample :
    betExcludedSpec ({} : Bet) (some { afterTime := some 0 }) = true ∧
      betShouldBeFiltered ({} : Bet) (some { afterTime := some 0 }) = false := by
  constructor <;> rfl

/-- C1 (amended): betShouldBeFiltered returns true (the bet is excluded) iff
at least one of the eight exclusion conditions holds, where a string or
number option counts as set only when it is truthy (present and nonempty,
respectively present and nonzero); and an absent filter object never
excludes. -/
theorem c1_filter_evaluator_amended (b : Bet) (f : BetFilter) :
    betShouldBeFiltered b none = false ∧
      (betShouldBeFiltered b (some f) = true ↔
        (optStrTruthy f.contractId = true ∧ b.contractId ≠ f.contractId.getD "") ∨
        (optStrTruthy f.userId = true ∧ b.userId ≠ f.userId.getD "") ∨
        (optNatTruthy f.afterTime = true ∧ b.createdTime ≤ f.afterTime.getD 0) ∨
        (optNatTruthy f.beforeTime = true ∧ b.createdTime ≥ f.beforeTime.getD 0) ∨
        (f.filterChallenges = true ∧ b.isChallenge = true) ∨
        (f.filterAntes = true ∧ b.isAnte = true) ∨
        (f.filterRedemptions = true ∧ b.isRedemption = true) ∨
        (f.isOpenLimitOrder = true ∧ (b.isFilled = true ∨ b.isCancelled = true))) := by
  refine ⟨rfl, ?_⟩
  simp only [betShouldBeFiltered, Bool.or_eq_true, Bool.and_eq_true,
    decide_eq_true_eq, or_assoc]

/-- C10: the filter evaluator treats falsy option values as unset: a filter
whose afterTime is 0, or whose contractId or userId is the empty string,
never excludes any bet (all other options left unset). -/
theorem c10_falsy_options_never_exclude (b : Bet) :
    betShouldBeFiltered b (some { afterTime := some 0 }) = false ∧
      betShouldBeFiltered b (some { contractId := some "" }) = false ∧
      betShouldBeFiltered b (some { userId := some "" }) = false := by
  refine ⟨rfl, rfl, rfl⟩

/-- C2 (counterexample): in useSubscribeNewBets.addBets the current
collection is placed first in the concatenation, so on an id collision the
stale current record survives and the incoming record carrying the new
isFilled flag is dropped: merging the batch holding the filled copy of bet a
into a collection holding the unfilled copy yields the unfilled copy. -/
theorem c2_counterexample :
    addBetsNew 5 false [{ id := "a", createdTime := 10, isFilled := true }]
        [{ id := "a", createdTime := 10 }] =
      [{ id := "a", createdTime := 10 }] ∧
      ({ id := "a", createdTime := 10 } : Bet).isFilled = false ∧
      ({ id := "a", createdTime := 10, isFilled := true } : Bet).isFilled = true := by
  refine ⟨rfl, rfl, rfl⟩

/-- C2 (amended): dedup keeps the first occurrence in concatenation order,
so the incoming batch wins id collisions only in useUnfilledBets.addBets
(batch placed first); in useSubscribeNewBets.addBets and
useSubscribeGlobalBets.addBets the current collection is placed first, so a
result element whose id already occurs in the current collection is the
current (possibly stale) record. -/
theorem c2_dedup_first_operand_wins :
    (∀ (now : Nat) (b : List LimitBet) (cur : Option (List LimitBet))
        (y : LimitBet), y ∈ addBetsUnfilled now b cur →
          y.id ∈ b.map Bet.id → y ∈ b) ∧
      (∀ (a : Nat) (i : Bool) (b cur : List Bet) (y : Bet),
        y ∈ addBetsNew a i b cur → y.id ∈ cur.map Bet.id → y ∈ cur) ∧
      (∀ (a : Nat) (i : Bool) (b cur : List Bet) (y : Bet),
        y ∈ addBetsGlobal a i b cur → y.id ∈ cur.map Bet.id → y ∈ cur) := by
  refine ⟨?_, ?_, ?_⟩
  · intro now b cur y hy hid
    exact mem_first_of_mem_mergeBets hy hid
  · intro a i b cur y hy hid
    exact mem_first_of_mem_mergeBets hy hid
  · intro a i b cur y hy hid
    exact mem_first_of_mem_mergeBets hy hid

/-- C2 (witness): the amended theorem applied at a concrete input: a live
limit order arriving in the batch is in the merged collection and is traced
back to the batch. -/
theorem c2_dedup_first_operand_wins_witness :
    ({ id := "w", createdTime := 1 } : Bet) ∈
      ([{ id := "w", createdTime := 1 }] : List Bet) :=
  c2_dedup_first_operand_wins.1 3 [{ id := "w", createdTime := 1 }] (some [])
    { id := "w", createdTime := 1 } (by decide) (by decide)

/-- C3: merging the batch holding bet a (createdTime 10) into the empty
open-limit-order collection and then merging the batch holding the same bet
with isFilled true yields the empty collection, whatever the evaluation
times of the two merges: the filled copy wins the dedup (batch first) and is
then dropped by the liveness filter, so no record with id a remains. -/
theorem c3_fill_scenario_excludes_a (t1 t2 : Nat) :
    addBetsUnfilled t2 [{ id := "a", createdTime := 10, isFilled := true }]
      (some (addBetsUnfilled t1 [{ id := "a", createdTime := 10 }] none)) = [] := by
  have h1 : addBetsUnfilled t1 [{ id := "a", createdTime := 10 }] none =
      [{ id := "a", createdTime := 10 }] := rfl
  rw [h1]
  rfl

/-- C4: every collection produced by a merge step has pairwise distinct ids,
for all three addBets closures and with no assumption on the inputs (the
dedup step establishes distinctness even from a degenerate current
collection). -/
theorem c4_no_duplicate_ids :
    (∀ (a : Nat) (i : Bool) (b cur : List Bet),
        ((addBetsNew a i b cur).map Bet.id).Nodup) ∧
      (∀ (a : Nat) (i : Bool) (b cur : List Bet),
        ((addBetsGlobal a i b cur).map Bet.id).Nodup) ∧
      (∀ (now : Nat) (b : List LimitBet) (cur : Option (List LimitBet)),
        ((addBetsUnfilled now b cur).map Bet.id).Nodup) := by
  refine ⟨?_, ?_, ?_⟩
  · intro a i b cur
    exact nodup_ids_mergeBets (newBetsKeep a i) cur b
  · intro a i b cur
    exact nodup_ids_mergeBets (newBetsKeep a i) cur b
  · intro now b cur
    exact nodup_ids_mergeBets (openOrderKeep now) b (cur.getD [])

/-- C5 (counterexample): the useSubscribeNewBets merge is not idempotent for
arbitrary inputs: with current collection [bet a at time 3] and batch
[bet a at time 10] under afterTime 5, the first merge keeps the stale time-3
record (current first, dedup) and then filters it out, giving the empty
collection; the second merge of the same batch then admits the time-10
record, so merging twice differs from merging once. -/
theorem c5_counterexample :
    addBetsNew 5 false [{ id := "a", createdTime := 10 }]
        (addBetsNew 5 false [{ id := "a", createdTime := 10 }]
          [{ id := "a", createdTime := 3 }]) ≠
      addBetsNew 5 false [{ id := "a", createdTime := 10 }]
        [{ id := "a", createdTime := 3 }] := by
  decide

/-- C5 (amended): at a fixed evaluation time, useUnfilledBets.addBets is
idempotent unconditionally, and useSubscribeNewBets.addBets is idempotent
provided the id determines the record among the participating bets (the data
model invariant; the counterexample shows it cannot be dropped). -/
theorem c5_idempotence_amended :
    (∀ (now : Nat) (b : List LimitBet) (cur : Option (List LimitBet)),
        addBetsUnfilled now b (some (addBetsUnfilled now b cur)) =
          addBetsUnfilled now b cur) ∧
      (∀ (a : Nat) (i : Bool) (cur b : List Bet),
        (∀ x ∈ cur ++ b, ∀ y ∈ cur ++ b, x.id = y.id → x = y) →
          addBetsNew a i b (addBetsNew a i b cur) = addBetsNew a i b cur) := by
  constructor
  · intro now b cur
    exact mergeBets_idem_first (openOrderKeep now) b (cur.getD [])
  · intro a i cur b H
    exact mergeBets_idem_second (newBetsKeep a i) cur b H

/-- C5 (witness): the amended theorem applied at a concrete input with the
id-determines-record hypothesis discharged by computation. -/
theorem c5_idempotence_amended_witness :
    addBetsNew 0 false [{ id := "a", createdTime := 1 }]
        (addBetsNew 0 false [{ id := "a", createdTime := 1 }] []) =
      addBetsNew 0 false [{ id := "a", createdTime := 1 }] [] :=
  c5_idempotence_amended.2 0 false [] [{ id := "a", createdTime := 1 }]
    (by decide)

/-- C6 (counterexample): useRealtimeBetsPolling does not honor the requested
order: with the order option asc and polled rows at times 3 and 5, the
returned collection is [time 5, time 3], which is not ascending by
createdTime, because the source hard-codes the direction desc in its final
orderBy. -/
theorem c6_counterexample :
    useRealtimeBetsPollingResult { order := some SortOrder.asc }
        (some [{ id := "x", createdTime := 3 }, { id := "y", createdTime := 5 }]) =
      some [{ id := "y", createdTime := 5 }, { id := "x", createdTime := 3 }] ∧
      ¬ betLE ({ id := "y", createdTime := 5 } : Bet)
          { id := "x", createdTime := 3 } := by
  exact ⟨rfl, by decide⟩

/-- C6 (amended): the merge-based hooks return collections sorted ascending
by createdTime, while useRealtimeBetsPolling always returns its collection
sorted descending by createdTime, regardless of the order option of its
filter. -/
theorem c6_ordering_amended :
    (∀ (a : Nat) (i : Bool) (b cur : List Bet),
        List.Sorted betLE (addBetsNew a i b cur)) ∧
      (∀ (a : Nat) (i : Bool) (b cur : List Bet),
        List.Sorted betLE (addBetsGlobal a i b cur)) ∧
      (∀ (now : Nat) (b : List LimitBet) (cur : Option (List LimitBet)),
        List.Sorted betLE (addBetsUnfilled now b cur)) ∧
      (∀ (o : BetFilter) (res : Option (List Bet)) (l : List Bet),
        useRealtimeBetsPollingResult o res = some l → List.Sorted betGE l) := by
  refine ⟨?_, ?_, ?_, ?_⟩
  · intro a i b cur
    exact sorted_mergeBets (newBetsKeep a i) cur b
  · intro a i b cur
    exact sorted_mergeBets (newBetsKeep a i) cur b
  · intro now b cur
    exact sorted_mergeBets (openOrderKeep now) b (cur.getD [])
  · intro o res l h
    cases res with
    | none => exact absurd h (by simp [useRealtimeBetsPollingResult])
    | some rs =>
      have : orderByCreatedTimeDesc rs = l := by
        simpa [useRealtimeBetsPollingResult] using h
      rw [← this]
      exact List.sorted_insertionSort betGE rs

/-- C6 (witness): the amended theorem applied at a concrete input. -/
theorem c6_ordering_amended_witness : List.Sorted betGE ([] : List Bet) :=
  c6_ordering_amended.2.2.2 {} (some []) [] rfl

/-- C8 (counterexample): the open-limit-order liveness filter treats an
expiresAt of 0 as no expiration (JavaScript truthiness), so a limit bet
whose expiration timestamp 0 is not in the future of evaluation time 5
survives the merge of an empty batch. -/
theorem c8_counterexample :
    addBetsUnfilled 5 [] (some [{ id := "a", expiresAt := some 0 }]) =
      [{ id := "a", expiresAt := some 0 }] ∧
      ({ id := "a", expiresAt := some 0 } : Bet).expiresAt = some 0 ∧
      ¬ (5 < 0) := by
  exact ⟨rfl, rfl, by decide⟩

/-- C8 (amended): after any merge at evaluation time now, every member of
the open-limit-order collection is unfilled, uncancelled, and has no truthy
expiration in the past: any nonzero expiration timestamp is strictly in the
future of now (an expiresAt of 0 counts as no expiration, per the
counterexample); in particular this holds for the merge of an empty
batch. -/
theorem c8_liveness_amended (now : Nat) (b : List LimitBet)
    (cur : Option (List LimitBet)) (y : LimitBet)
    (hy : y ∈ addBetsUnfilled now b cur) :
    y.isFilled = false ∧ y.isCancelled = false ∧
      ∀ e, y.expiresAt = some e → e ≠ 0 → now < e := by
  have hp : openOrderKeep now y = true := (List.mem_filter.mp hy).2
  unfold openOrderKeep at hp
  simp only [Bool.and_eq_true, Bool.or_eq_true, Bool.not_eq_true',
    decide_eq_true_eq] at hp
  refine ⟨hp.1.1, hp.1.2, ?_⟩
  intro e he hne
  rcases hp.2 with h0 | hlt
  · rw [he] at h0
    unfold optNatTruthy at h0
    simp at h0
    exact absurd h0 hne
  · rw [he] at hlt
    exact hlt

/-- C8 (witness): the amended theorem applied at a concrete input: a live
limit bet expiring at 100 is in the collection at evaluation time 5 and
satisfies the liveness conclusions. -/
theorem c8_liveness_amended_witness :
    ({ id := "b", createdTime := 2, expiresAt := some 100 } : Bet).isFilled = false ∧
      ({ id := "b", createdTime := 2, expiresAt := some 100 } : Bet).isCancelled = false ∧
      ∀ e, ({ id := "b", createdTime := 2, expiresAt := some 100 } : Bet).expiresAt =
          some e → e ≠ 0 → 5 < e :=
  c8_liveness_amended 5 []
    (some [{ id := "b", createdTime := 2, expiresAt := some 100 }])
    { id := "b", createdTime := 2, expiresAt := some 100 } (by decide)

theorem maxByCreatedTimeAux_mem (acc : ContractBetsRow) :
    ∀ l : List ContractBetsRow,
      maxByCreatedTimeAux acc l = acc ∨ maxByCreatedTimeAux acc l ∈ l := by
  intro l
  induction l generalizing acc with
  | nil => exact Or.inl rfl
  | cons r rs ih =>
    rw [maxByCreatedTimeAux]
    by_cases h : acc.created_time < r.created_time
    · rw [if_pos h]
      rcases ih r with heq | hmem
      · exact Or.inr (by rw [heq]; exact List.mem_cons_self _ _)
      · exact Or.inr (List.mem_cons_of_mem _ hmem)
    · rw [if_neg h]
      rcases ih acc with heq | hmem
      · exact Or.inl heq
      · exact Or.inr (List.mem_cons_of_mem _ hmem)

theorem maxByCreatedTimeAux_le (acc : ContractBetsRow) :
    ∀ l : List ContractBetsRow,
      acc.created_time ≤ (maxByCreatedTimeAux acc l).created_time ∧
        ∀ r ∈ l, r.created_time ≤ (maxByCreatedTimeAux acc l).created_time := by
  intro l
  induction l generalizing acc with
  | nil => exact ⟨Nat.le_refl _, by simp⟩
  | cons r rs ih =>
    rw [maxByCreatedTimeAux]
    by_cases h : acc.created_time < r.created_time
    · rw [if_pos h]
      refine ⟨Nat.le_trans (Nat.le_of_lt h) (ih r).1, ?_⟩
      intro z hz
      rcases List.mem_cons.mp hz with rfl | hz2
      · exact (ih z).1
      · exact (ih r).2 z hz2
    · rw [if_neg h]
      refine ⟨(ih acc).1, ?_⟩
      intro z hz
      rcases List.mem_cons.mp hz with rfl | hz2
      · exact Nat.le_trans (Nat.le_of_not_lt h) (ih acc).1
      · exact (ih acc).2 z hz2

/-- C9: the delta query uses as its strict lower bound on created_time the
maximum creation time among the currently known rows (the bound dominates
every known row and is attained by one of them); only when no rows are known
(rows absent or empty) does it fall back to the scope's afterTime defaulted
to 0; and the residual filter handed to applyBetsFilter is the scope filter
with afterTime removed. -/
theorem c9_delta_query_bound (o : BetFilter) :
    (∀ rows : List ContractBetsRow, rows ≠ [] →
        (∀ r ∈ rows,
          r.created_time ≤ (newRowsOnlyQuery o (some rows)).gtCreatedTime) ∧
          ∃ r ∈ rows,
            (newRowsOnlyQuery o (some rows)).gtCreatedTime = r.created_time) ∧
      (newRowsOnlyQuery o none).gtCreatedTime = o.afterTime.getD 0 ∧
      (newRowsOnlyQuery o (some [])).gtCreatedTime = o.afterTime.getD 0 ∧
      ∀ rows : Option (List ContractBetsRow),
        (newRowsOnlyQuery o rows).residual = { o with afterTime := none } := by
  refine ⟨?_, rfl, rfl, fun rows => rfl⟩
  intro rows hne
  cases rows with
  | nil => exact absurd rfl hne
  | cons r rs =>
    have hgt : (newRowsOnlyQuery o (some (r :: rs))).gtCreatedTime =
        (maxByCreatedTimeAux r rs).created_time := rfl
    constructor
    · intro z hz
      rw [hgt]
      rcases List.mem_cons.mp hz with rfl | hz2
      · exact (maxByCreatedTimeAux_le z rs).1
      · exact (maxByCreatedTimeAux_le r rs).2 z hz2
    · refine ⟨maxByCreatedTimeAux r rs, ?_, hgt⟩
      rcases maxByCreatedTimeAux_mem r rs with heq | hmem
      · rw [heq]
        exact List.mem_cons_self _ _
      · exact List.mem_cons_of_mem _ hmem

/-- C9 (witness): the bound theorem applied at a concrete known row. -/
theorem c9_delta_query_bound_witness :
    (∀ r ∈ [({ created_time := 7 } : ContractBetsRow)],
        r.created_time ≤
          (newRowsOnlyQuery {} (some [{ created_time := 7 }])).gtCreatedTime) ∧
      ∃ r ∈ [({ created_time := 7 } : ContractBetsRow)],
        (newRowsOnlyQuery {} (some [{ created_time := 7 }])).gtCreatedTime =
          r.created_time :=
  (c9_delta_query_bound {}).1 [{ created_time := 7 }] (by decide)

/-! ### The subscription scope pipeline for the C7 scenario -/

/-- Modelled from the spec: the subscription scope only ever hands its merge
step bets that match the scope's filter (the initial getBets query applies
the filter server-side and the broadcast topic is scope-parameterized; both
are outside this file).  The arrival filtering is modelled with the module's
own client-side predicate betShouldBeFiltered. -/
def scopedBatch (f : BetFilter) (batch : List Bet) : List Bet :=
  batch.filter (fun b => !betShouldBeFiltered b (some f))

/-- Reconciliation of a sequence of arriving batches into the collection of
a useSubscribeNewBets scope, starting from the empty collection: each batch
is scope-filtered on arrival and merged with addBets. -/
def reconcileNewBets (f : BetFilter) (afterTime : Nat) (includeRedemptions : Bool)
    (batches : List (List Bet)) : List Bet :=
  batches.foldl
    (fun cur batch =>
      addBetsNew afterTime includeRedemptions (scopedBatch f batch) cur) []

/-- The per-element survival predicate of the scope pipeline: the bet passes
the arrival filter and the merge step's own filter. -/
def keepInScope (f : BetFilter) (a : Nat) (i : Bool) (x : Bet) : Bool :=
  newBetsKeep a i x && !betShouldBeFiltered x (some f)

theorem addBetsNew_scoped_perm (f : BetFilter) (a : Nat) (i : Bool)
    (cur batch : List Bet)
    (hnd : ((cur ++ batch).map Bet.id).Nodup)
    (hcur : ∀ x ∈ cur, newBetsKeep a i x = true) :
    List.Perm (addBetsNew a i (scopedBatch f batch) cur)
      (cur ++ batch.filter (keepInScope f a i)) := by
  have hsub : List.Sublist (cur ++ scopedBatch f batch) (cur ++ batch) :=
    (List.Sublist.refl cur).append (List.filter_sublist batch)
  have hnd2 : ((cur ++ scopedBatch f batch).map Bet.id).Nodup :=
    List.Nodup.sublist (hsub.map Bet.id) hnd
  have huniq : uniqBy Bet.id (cur ++ scopedBatch f batch) =
      cur ++ scopedBatch f batch := uniqBy_eq_self Bet.id hnd2
  rw [addBetsNew_eq_mergeBets, mergeBets, huniq, sortByCreatedTime]
  have hperm :=
    (List.perm_insertionSort betLE (cur ++ scopedBatch f batch)).filter
      (newBetsKeep a i)
  refine hperm.trans ?_
  rw [List.filter_append, List.filter_eq_self.mpr hcur, scopedBatch,
    List.filter_filter]
  exact List.Perm.refl _

theorem reconcileNewBets_perm_aux (f : BetFilter) (a : Nat) (i : Bool) :
    ∀ (batches : List (List Bet)) (cur : List Bet),
      ((cur ++ batches.flatten).map Bet.id).Nodup →
      (∀ x ∈ cur, newBetsKeep a i x = true) →
      List.Perm
        (batches.foldl
          (fun c batch => addBetsNew a i (scopedBatch f batch) c) cur)
        (cur ++ batches.flatten.filter (keepInScope f a i)) := by
  intro batches
  induction batches with
  | nil =>
    intro cur _ _
    simp
  | cons batch rest ih =>
    intro cur hnd hcur
    rw [List.foldl_cons]
    have hnd1 : ((cur ++ batch).map Bet.id).Nodup := by
      refine List.Nodup.sublist (List.Sublist.map Bet.id ?_) hnd
      rw [List.flatten_cons, ← List.append_assoc]
      exact List.sublist_append_left _ _
    have hstep := addBetsNew_scoped_perm f a i cur batch hnd1 hcur
    have hcur2keep : ∀ x ∈ addBetsNew a i (scopedBatch f batch) cur,
        newBetsKeep a i x = true := by
      intro x hx
      rw [addBetsNew_eq_mergeBets, mergeBets] at hx
      exact (List.mem_filter.mp hx).2
    have hnd2 : ((addBetsNew a i (scopedBatch f batch) cur ++
        rest.flatten).map Bet.id).Nodup := by
      have hp2 := hstep.append_right rest.flatten
      refine List.Nodup.perm ?_ (hp2.map Bet.id).symm
      refine List.Nodup.sublist (List.Sublist.map Bet.id ?_) hnd
      rw [List.flatten_cons, ← List.append_assoc]
      exact ((List.Sublist.refl cur).append (List.filter_sublist batch)).append
        (List.Sublist.refl rest.flatten)
    have hrec := ih (addBetsNew a i (scopedBatch f batch) cur) hnd2 hcur2keep
    refine hrec.trans ?_
    refine (hstep.append_right _).trans ?_
    rw [List.append_assoc, ← List.filter_append, ← List.flatten_cons]

theorem reconcileNewBets_sorted_aux (f : BetFilter) (a : Nat) (i : Bool) :
    ∀ (batches : List (List Bet)) (cur : List Bet), List.Sorted betLE cur →
      List.Sorted betLE
        (batches.foldl
          (fun c batch => addBetsNew a i (scopedBatch f batch) c) cur) := by
  intro batches
  induction batches with
  | nil =>
    intro cur h
    exact h
  | cons batch rest ih =>
    intro cur h
    rw [List.foldl_cons]
    exact ih _ (sorted_mergeBets (newBetsKeep a i) cur (scopedBatch f batch))

theorem perm_pair_cases {α : Type} {l : List α} {a b : α}
    (h : List.Perm l [a, b]) : l = [a, b] ∨ l = [b, a] := by
  have hlen : l.length = 2 := h.length_eq
  cases l with
  | nil => simp at hlen
  | cons x t =>
    cases t with
    | nil => simp at hlen
    | cons y t2 =>
      cases t2 with
      | cons z t3 => simp at hlen
      | nil =>
        have hx : x ∈ [a, b] := h.subset (List.mem_cons_self x [y])
        rcases List.mem_cons.mp hx with rfl | hx2
        · have h2 : List.Perm [y] [b] := h.cons_inv
          have hy : y = b := by simpa using List.perm_singleton.mp h2
          exact Or.inl (by rw [hy])
        · have hxb : x = b := by simpa using hx2
          have hswap : List.Perm [a, b] [b, a] := List.Perm.swap b a []
          have h2 : List.Perm [y] [a] := by
            rw [hxb] at h
            exact (h.trans hswap).cons_inv
          have hy : y = a := by simpa using List.perm_singleton.mp h2
          exact Or.inr (by rw [hxb, hy])

/-- The bets of the C7 scenario. -/
def betM1t50 : Bet := { id := "b50", contractId := "M1", createdTime := 50 }

/-- The bets of the C7 scenario. -/
def betM1t150 : Bet := { id := "b150", contractId := "M1", createdTime := 150 }

/-- The bets of the C7 scenario. -/
def betM1t200 : Bet := { id := "b200", contractId := "M1", createdTime := 200 }

/-- The bets of the C7 scenario. -/
def betM2t160 : Bet := { id := "m160", contractId := "M2", createdTime := 160 }

/-- The scope filter of the C7 scenario. -/
def filterC7 : BetFilter := { contractId := some "M1", afterTime := some 100 }

/-- C7: under the scope filter with contractId M1 and afterTime 100, when
the four scenario bets (times 50, 150, 200 on M1 and time 160 on M2) arrive
partitioned into any batches in any order and are reconciled from the empty
collection, the resulting collection is exactly [bet at 150 on M1, bet at
200 on M1] in ascending order: the bet at 50 is excluded by afterTime and
the M2 bet by contractId. -/
theorem c7_scenario_reconciles_to_150_200 (batches : List (List Bet))
    (h : List.Perm batches.flatten
      [betM1t50, betM1t150, betM1t200, betM2t160]) :
    reconcileNewBets filterC7 100 false batches = [betM1t150, betM1t200] := by
  have hnd : ((([] : List Bet) ++ batches.flatten).map Bet.id).Nodup := by
    rw [List.nil_append]
    refine List.Nodup.perm ?_ (h.map Bet.id).symm
    decide
  have hperm1 :=
    reconcileNewBets_perm_aux filterC7 100 false batches [] hnd
      (by intro x hx; cases hx)
  rw [List.nil_append] at hperm1
  have hperm2 :
      List.Perm (batches.flatten.filter (keepInScope filterC7 100 false))
        ([betM1t50, betM1t150, betM1t200, betM2t160].filter
          (keepInScope filterC7 100 false)) :=
    h.filter _
  have hcompute :
      [betM1t50, betM1t150, betM1t200, betM2t160].filter
        (keepInScope filterC7 100 false) = [betM1t150, betM1t200] := by
    decide
  have hres : List.Perm (reconcileNewBets filterC7 100 false batches)
      [betM1t150, betM1t200] := by
    refine hperm1.trans (hperm2.trans ?_)
    rw [hcompute]
  have hsort : List.Sorted betLE (reconcileNewBets filterC7 100 false batches) :=
    reconcileNewBets_sorted_aux filterC7 100 false batches [] List.sorted_nil
  rcases perm_pair_cases hres with he | he
  · exact he
  · exfalso
    rw [he] at hsort
    have hrel := List.rel_of_sorted_cons hsort betM1t150 (List.mem_cons_self _ _)
    exact absurd hrel (by decide)

/-- C7 (witness): the scenario theorem applied at one concrete batching of
the four bets, out of creation order and with an empty batch in between. -/
theorem c7_scenario_witness :
    reconcileNewBets filterC7 100 false
        [[betM1t150, betM2t160], [betM1t50], [], [betM1t200]] =
      [betM1t150, betM1t200] :=
  c7_scenario_reconciles_to_150_200
    [[betM1t150, betM2t160], [betM1t50], [], [betM1t200]] (by decide)

end UseBets
